import Mathlib

/-!
Formal model of the schema-42 post-migration of the stash repository
(`pkg/sqlite/migrations/42_postmigrate.go`).

The migration has three stages, run by `post42`:
 1. the alias pass (`migrate` / `migratePerformerAliases`), which splits raw
    composite alias strings into one row per alias;
 2. the duplicate pass (`migrateDuplicatePerformers` /
    `migrateDuplicatePerformer`), which assigns disambiguation values to
    performers whose name collides with an earlier row;
 3. schema finalization (`executeSchemaChanges`), which installs the two
    partial unique indexes.

Modelling conventions:
 * SQL tables are lists of row structures; an INSERT appends at the end, a
   DELETE filters, an UPDATE maps.
 * Go `int` row keys are modelled as `Nat` (SQLite rowid/AUTOINCREMENT keys
   are positive; theorems that need positivity state it as a hypothesis).
 * `ORDER BY k LIMIT n` is modelled as a stable insertion sort on the key
   followed by `List.take n`; SQLite leaves the relative order of equal keys
   unspecified, and the stable order is one admissible choice.
 * A page of rows is read as a snapshot before the per-row transforms of
   that page run, and the state is threaded sequentially through the
   transforms, matching the single-connection sequential execution.
 * Errors are an explicit `Err` type; `fmt.Errorf("...: %w", err)` wrapping
   becomes the `Err.wrapped` constructor.  The only error sources that exist
   in the pure model are the ones in the migration's own logic
   (`strconv.Atoi` failure, `sql.ErrNoRows`, unique-index violation);
   transient storage faults are not modelled.
 * 64-bit overflow of `strconv.Atoi` is not modelled; the disambiguation
   values handled by the migration are small decimal strings.
-/

set_option maxRecDepth 40000

namespace Stash42

/-- A row of the `performer_aliases` table: `{performer_id, alias}`. -/
structure AliasRow where
  performer_id : Nat
  aliasText : String
deriving DecidableEq

/-- A row of the `performers` table, restricted to the columns the migration
touches: `{id, name, disambiguation}`.  `id` is the INTEGER PRIMARY KEY, so
`rowid = id`. -/
structure Performer where
  id : Nat
  name : String
  disambiguation : Option String
deriving DecidableEq

/-- Errors produced by the migration logic. -/
inductive Err where
  | noRows : Err
  | atoiInvalid : String → Err
  | uniqueViolation : String → Err
  | wrapped : String → Err → Err
deriving DecidableEq

/-- The delimiter predicate of the alias split: `strings.ContainsRune(",/", r)`. -/
def isDelim (c : Char) : Bool := (c == ',') || (c == '/')

/-- Model of Go `strings.FieldsFunc`: split at the characters satisfying `p`,
dropping empty fields (consecutive delimiters yield nothing). -/
def fieldsFuncAux (p : Char → Bool) : List Char → List Char → List (List Char)
  | [], acc => if acc.isEmpty then [] else [acc.reverse]
  | c :: cs, acc =>
    if p c then
      if acc.isEmpty then fieldsFuncAux p cs []
      else acc.reverse :: fieldsFuncAux p cs []
    else fieldsFuncAux p cs (c :: acc)

/-- Go `strings.FieldsFunc` on a `String`. -/
def fieldsFunc (s : String) (p : Char → Bool) : List String :=
  (fieldsFuncAux p s.toList []).map fun cs => ⟨cs⟩

/-- Model of Go `strings.TrimSpace`: drop leading and trailing whitespace. -/
def trimSpace (s : String) : String :=
  ⟨((s.toList.dropWhile Char.isWhitespace).reverse.dropWhile Char.isWhitespace).reverse⟩

/-- Modelled from the spec: `stringslice.StrAppendUniques` (package
`pkg/sliceutil/stringslice` is not under the provided sources).  Per the
spec it deduplicates preserving first-occurrence order: each string of
`strs` is appended to `dest` unless already present. -/
def strAppendUniques (dest : List String) (strs : List String) : List String :=
  strs.foldl (fun acc s => if s ∈ acc then acc else acc ++ [s]) dest

/-- The alias split used by `migratePerformerAliases`: split on `,` or `/`. -/
def splitAliases (aliases : String) : List String := fieldsFunc aliases isDelim

/-- `migratePerformerAliases` from `42_postmigrate.go`: split the raw alias
string; if fewer than two pieces result the row is left untouched; otherwise
delete every `performer_aliases` row of that performer, trim each piece,
deduplicate, and insert one row per remaining alias. -/
def migratePerformerAliases (id : Nat) (aliases : String) (t : List AliasRow) :
    List AliasRow :=
  let aliasList := splitAliases aliases
  if aliasList.length < 2 then t
  else
    let t' := t.filter fun r => r.performer_id != id
    let trimmed := aliasList.map trimSpace
    let uniques := strAppendUniques [] trimmed
    t' ++ uniques.map fun a => { performer_id := id, aliasText := a }

/-- The page size of both passes (`const limit = 1000`). -/
def limit : Nat := 1000

/-- Ordering of alias rows by the pagination key (`ORDER BY performer_id`). -/
def aliasLe (a b : AliasRow) : Prop := a.performer_id ≤ b.performer_id

instance : DecidableRel aliasLe := fun a b => Nat.decLe a.performer_id b.performer_id

/-- Strict ordering of alias rows by the pagination key. -/
def aliasLt (a b : AliasRow) : Prop := a.performer_id < b.performer_id

instance : IsTotal AliasRow aliasLe := ⟨fun a b => Nat.le_total a.performer_id b.performer_id⟩

instance : IsTrans AliasRow aliasLe := ⟨fun _ _ _ h1 h2 => Nat.le_trans h1 h2⟩

instance : IsAntisymm AliasRow aliasLt :=
  ⟨fun _ _ h1 h2 => absurd h2 (Nat.lt_asymm h1)⟩

/-- The rows with pagination key strictly beyond the boundary
(`WHERE performer_id > lastID`). -/
def filterGT (b : Nat) (t : List AliasRow) : List AliasRow :=
  t.filter fun r => decide (b < r.performer_id)

/-- One page of the alias pass:
`SELECT performer_id, alias FROM performer_aliases [WHERE performer_id > lastID]
ORDER BY performer_id LIMIT 1000`.  The `WHERE` clause is only added when
`lastID != 0`, exactly as in the Go code. -/
def aliasPage (lastID : Nat) (t : List AliasRow) : List AliasRow :=
  let base := if lastID = 0 then t else filterGT lastID t
  (base.insertionSort aliasLe).take limit

/-- Process the rows of one alias-pass page in order, setting `lastID` to each
row's key before transforming it, as the Go loop body does. -/
def processAliasPage (page : List AliasRow) (st : List AliasRow × Nat) :
    List AliasRow × Nat :=
  page.foldl (fun st r => (migratePerformerAliases r.performer_id r.aliasText st.1, r.performer_id)) st

/-- Result of the alias pass.  `table` is the final `performer_aliases` state;
`fetched` is the concatenation of all fetched pages (observational
instrumentation of the cursor, used to state skipped/revisited-row claims);
`completed` records that the loop reached its natural exit (`!gotSome`)
rather than running out of fuel. -/
structure AliasPassResult where
  table : List AliasRow
  fetched : List AliasRow
  completed : Bool
deriving DecidableEq

/-- The page loop of `migrate`, with explicit fuel standing for the unbounded
Go `for {}` loop. -/
def aliasLoop : Nat → Nat → List AliasRow → AliasPassResult
  | 0, _, t => ⟨t, [], false⟩
  | fuel+1, lastID, t =>
    let page := aliasPage lastID t
    if page.isEmpty then ⟨t, [], true⟩
    else
      let st := processAliasPage page (t, lastID)
      let rest := aliasLoop fuel st.2 st.1
      ⟨rest.table, page ++ rest.fetched, rest.completed⟩

/-- `migrate` from `42_postmigrate.go` (the alias pass): run the page loop
from `lastID = 0`.  `t.length + 1` rounds of fuel are always enough for the
loop to reach its natural exit on the inputs the claims quantify over (each
non-empty page strictly shrinks the set of rows beyond the boundary). -/
def migrate (t : List AliasRow) : AliasPassResult :=
  aliasLoop (t.length + 1) 0 t

/-- Model of Go `strconv.Atoi`: an optional sign followed by at least one
decimal digit; anything else is an error (`none`). -/
def atoi (s : String) : Option Int :=
  let core : Int → List Char → Option Int := fun sign ds =>
    if ds.isEmpty then none
    else if ds.all Char.isDigit then
      some (sign * (ds.foldl (fun n c => n * 10 + (c.toNat - 48)) 0 : Nat))
    else none
  match s.toList with
  | '+' :: rest => core 1 rest
  | '-' :: rest => core (-1) rest
  | l => core 1 l

/-- Lexicographic comparison of char lists by code point.  UTF-8 byte order
coincides with code-point order, so this is SQLite's BINARY collation. -/
def charListLt : List Char → List Char → Bool
  | [], [] => false
  | [], _ :: _ => true
  | _ :: _, [] => false
  | c :: cs, d :: ds => if c < d then true else if d < c then false else charListLt cs ds

/-- SQLite ordering of the `disambiguation` column values: `NULL` sorts below
every TEXT value, and TEXT values compare lexicographically (BINARY
collation; the stored values are ASCII decimal strings). -/
def disLt (a b : Option String) : Bool :=
  match a, b with
  | none, none => false
  | none, some _ => true
  | some _, none => false
  | some x, some y => charListLt x.toList y.toList

/-- Result of `SELECT disambiguation FROM performers WHERE name = ?
ORDER BY disambiguation DESC LIMIT 1` via `db.Get`: `none` models
`sql.ErrNoRows` (no row of that name), otherwise the maximum under `disLt`. -/
def maxDisambiguation (l : List (Option String)) : Option (Option String) :=
  match l with
  | [] => none
  | d :: ds => some (ds.foldl (fun acc d2 => if disLt acc d2 then d2 else acc) d)

/-- `UPDATE performers SET disambiguation = ? WHERE id = ?` with
`strconv.Itoa(newDisambiguation)`. -/
def setDisambiguation (performerID : Nat) (nd : Int) (t : List Performer) :
    List Performer :=
  t.map fun p =>
    if p.id == performerID then { p with disambiguation := some (toString nd) } else p

/-- `migrateDuplicatePerformer` from `42_postmigrate.go`: fetch the maximum
disambiguation of the row's name, parse it (error if non-numeric), and set
the row's disambiguation to `max + 1` (or `1` if no row of the name has
one). -/
def migrateDuplicatePerformer (performerID : Nat) (name : String)
    (t : List Performer) : Except Err (List Performer) :=
  match maxDisambiguation ((t.filter fun p => p.name == name).map (·.disambiguation)) with
  | none => .error .noRows
  | some none => .ok (setDisambiguation performerID 1 t)
  | some (some s) =>
    match atoi s with
    | none => .error (.atoiInvalid s)
    | some n => .ok (setDisambiguation performerID (n + 1) t)

/-- The selection predicate of the duplicate-pass page query: disambiguation
is NULL and a row with the same name and a smaller rowid exists. -/
def isDupRow (t : List Performer) (p : Performer) : Bool :=
  p.disambiguation.isNone && t.any fun p2 => p.name == p2.name && decide (p2.id < p.id)

/-- Ordering of performers by the pagination key (`ORDER BY id`). -/
def perfLe (a b : Performer) : Prop := a.id ≤ b.id

instance : DecidableRel perfLe := fun a b => Nat.decLe a.id b.id

/-- One page of the duplicate pass:
`SELECT id, name FROM performers WHERE disambiguation IS NULL AND EXISTS
(... same name, smaller rowid ...) ORDER BY id LIMIT 1000`. -/
def dupPage (t : List Performer) : List Performer :=
  ((t.filter (isDupRow t)).insertionSort perfLe).take limit

/-- Process the rows of one duplicate-pass page in order, stopping at the
first per-row error as the Go loop body does. -/
def processDupPage : List Performer → List Performer → Except Err (List Performer)
  | [], t => .ok t
  | r :: rest, t =>
    match migrateDuplicatePerformer r.id r.name t with
    | .error e => .error e
    | .ok t' => processDupPage rest t'

/-- Result of the duplicate pass.  `performers` is the persisted table state
(on error: the state at the start of the failing page, since the page's
transaction is rolled back); `err` the propagated error, if any; `completed`
records a natural loop exit (empty page or error) as opposed to running out
of fuel; `fetched` collects the fetched pages (instrumentation). -/
structure DupPassResult where
  performers : List Performer
  err : Option Err
  completed : Bool
  fetched : List Performer
deriving DecidableEq

/-- The page loop of `migrateDuplicatePerformers`, with explicit fuel standing
for the unbounded Go `for {}` loop.

Modelled from the spec: the transactional behaviour of `withTxn` (the shared
`migrator` helper is not under the provided sources) — a page's writes are
committed on success and all discarded when the page body returns an error. -/
def dupLoop : Nat → List Performer → DupPassResult
  | 0, t => ⟨t, none, false, []⟩
  | fuel+1, t =>
    let page := dupPage t
    if page.isEmpty then ⟨t, none, true, []⟩
    else
      match processDupPage page t with
      | .error e => ⟨t, some e, true, page⟩
      | .ok t' =>
        let rest := dupLoop fuel t'
        ⟨rest.performers, rest.err, rest.completed, page ++ rest.fetched⟩

/-- Number of rows currently matched by the duplicate-pass selection. -/
def dupMatchCount (t : List Performer) : Nat := (t.filter (isDupRow t)).length

/-- `migrateDuplicatePerformers` from `42_postmigrate.go` (the duplicate
pass).  `dupMatchCount t + 1` rounds of fuel always suffice for a natural
exit (proved below: every committed non-empty page strictly shrinks the
match count). -/
def migrateDuplicatePerformers (t : List Performer) : DupPassResult :=
  dupLoop (dupMatchCount t + 1) t

/-- `n` successfully committed duplicate-pass pages starting from `t`
(`none` if fewer than `n` pages commit). -/
def commitN : Nat → List Performer → Option (List Performer)
  | 0, t => some t
  | n+1, t =>
    let page := dupPage t
    if page.isEmpty then none
    else
      match processDupPage page t with
      | .error _ => none
      | .ok t' => commitN n t'

/-- Key-multiset duplicate test used to model `CREATE UNIQUE INDEX`. -/
def hasDupKeys {K : Type} [DecidableEq K] : List K → Bool
  | [] => false
  | k :: ks => if k ∈ ks then true else hasDupKeys ks

/-- Keys covered by the partial index `performers_name_disambiguation_unique`
(`(name, disambiguation) WHERE disambiguation IS NOT NULL`). -/
def nameDisKeys (t : List Performer) : List (String × String) :=
  t.filterMap fun p => p.disambiguation.map fun d => (p.name, d)

/-- Keys covered by the partial index `performers_name_unique`
(`(name) WHERE disambiguation IS NULL`). -/
def nullNameKeys (t : List Performer) : List String :=
  t.filterMap fun p => if p.disambiguation.isNone then some p.name else none

/-- `executeSchemaChanges` from `42_postmigrate.go`: run the two
`CREATE UNIQUE INDEX` statements in order via `execAll`.  A unique-index
creation fails exactly when two rows in its scope share the key; the first
failure stops execution.  Returns the error (if any) and the indexes that
were created. -/
def executeSchemaChanges (t : List Performer) : Option Err × List String :=
  if hasDupKeys (nameDisKeys t) then
    (some (.uniqueViolation "performers_name_disambiguation_unique"), [])
  else if hasDupKeys (nullNameKeys t) then
    (some (.uniqueViolation "performers_name_unique"), ["performers_name_disambiguation_unique"])
  else
    (none, ["performers_name_disambiguation_unique", "performers_name_unique"])

/-- The database state the migration touches. -/
structure DB where
  performers : List Performer
  performer_aliases : List AliasRow
  indexes : List String
deriving DecidableEq

/-- The three stages of `post42`, in source order. -/
inductive Stage where
  | aliasPass : Stage
  | duplicatePass : Stage
  | schemaFinalize : Stage
deriving DecidableEq

/-- `post42` from `42_postmigrate.go`, instrumented with the list of stages
that started (in execution order).  Error wrapping mirrors the source: both
pass errors are wrapped as "migrating performer aliases" (the duplicate-pass
message reuses that string in the source), schema errors as "executing
schema changes". -/
def post42T (db : DB) : DB × Option Err × List Stage :=
  let ar := migrate db.performer_aliases
  let db1 : DB := { db with performer_aliases := ar.table }
  let dr := migrateDuplicatePerformers db1.performers
  let db2 : DB := { db1 with performers := dr.performers }
  match dr.err with
  | some e => (db2, some (.wrapped "migrating performer aliases" e), [.aliasPass, .duplicatePass])
  | none =>
    let sc := executeSchemaChanges db2.performers
    let db3 : DB := { db2 with indexes := db2.indexes ++ sc.2 }
    match sc.1 with
    | some e =>
      (db3, some (.wrapped "executing schema changes" e),
        [.aliasPass, .duplicatePass, .schemaFinalize])
    | none => (db3, none, [.aliasPass, .duplicatePass, .schemaFinalize])

/-- `post42` as the caller sees it: final database state and error. -/
def post42 (db : DB) : DB × Option Err := ((post42T db).1, (post42T db).2.1)

/-- The normalized alias list produced for a raw alias string that splits
into at least two pieces: trim each piece, then deduplicate preserving
first-occurrence order (the exact pipeline of `migratePerformerAliases`). -/
def normalizedAliases (s : String) : List String :=
  strAppendUniques [] ((splitAliases s).map trimSpace)

/-- The alias rows a single performer row ends up with after being processed
by the alias pass: untouched if its raw string has fewer than two pieces,
otherwise one row per normalized alias. -/
def normalizedFor (r : AliasRow) : List AliasRow :=
  if (splitAliases r.aliasText).length < 2 then [r]
  else (normalizedAliases r.aliasText).map fun a => ⟨r.performer_id, a⟩

/-- Twelve performers all named "Alice" with null disambiguation
(ids 1..12): the failing input of the duplicate-pass numbering claim. -/
def alice12 : List Performer := (List.range 12).map fun i => ⟨i + 1, "Alice", none⟩

/-- Three performers named "Alice" with null disambiguation (spec
scenario 3). -/
def alice3 : List Performer := [⟨1, "Alice", none⟩, ⟨2, "Alice", none⟩, ⟨3, "Alice", none⟩]

/-- A table whose duplicate row's name carries a non-numeric maximum
disambiguation value. -/
def badA : List Performer := [⟨1, "Alice", some "x"⟩, ⟨2, "Alice", none⟩]

/-- Like `badA` but with different performer ids and name: used to show the
propagated error carries no performer id/name context. -/
def badB : List Performer := [⟨5, "Bob", some "x"⟩, ⟨9, "Bob", none⟩]

/-- An alias table of 1001 rows in which two rows share the pagination key
1000: the page boundary of the alias pass splits the key group. -/
def c5Table : List AliasRow :=
  ((List.range 999).map fun i => ⟨i + 1, "a"⟩) ++ [⟨1000, "x"⟩, ⟨1000, "y"⟩]

/-- The spec's scenario-1 alias table. -/
def jane : List AliasRow := [⟨1, "Jane Doe, J. Doe / JD"⟩]

theorem mpa_noop {id : Nat} {s : String} {t : List AliasRow}
    (h : (splitAliases s).length < 2) : migratePerformerAliases id s t = t := by
  unfold migratePerformerAliases
  simp [h]

theorem processAliasPage_cons (r : AliasRow) (rest : List AliasRow)
    (st : List AliasRow × Nat) :
    processAliasPage (r :: rest) st =
      processAliasPage rest (migratePerformerAliases r.performer_id r.aliasText st.1, r.performer_id) :=
  rfl

theorem processAliasPage_noop : ∀ (page t : List AliasRow) (l : Nat),
    (∀ r ∈ page, (splitAliases r.aliasText).length < 2) →
    (processAliasPage page (t, l)).1 = t := by
  intro page
  induction page with
  | nil => intro t l _; rfl
  | cons r rest ih =>
    intro t l h
    rw [processAliasPage_cons, mpa_noop (h r (List.mem_cons_self r rest))]
    exact ih t r.performer_id fun x hx => h x (List.mem_cons_of_mem r hx)

theorem mem_aliasPage {b : Nat} {t : List AliasRow} {r : AliasRow}
    (h : r ∈ aliasPage b t) : r ∈ t := by
  unfold aliasPage at h
  have h1 := List.mem_of_mem_take h
  have h2 := (List.perm_insertionSort aliasLe _).mem_iff.mp h1
  by_cases hb : b = 0
  · simpa [hb] using h2
  · rw [if_neg hb] at h2
    exact List.mem_of_mem_filter h2

theorem aliasLoop_table_noop : ∀ (fuel b : Nat) (t : List AliasRow),
    (∀ r ∈ t, (splitAliases r.aliasText).length < 2) →
    (aliasLoop fuel b t).table = t := by
  intro fuel
  induction fuel with
  | zero => intro b t _; rfl
  | succ n ih =>
    intro b t h
    by_cases hp : (aliasPage b t).isEmpty
    · simp [aliasLoop, hp]
    · have hst : (processAliasPage (aliasPage b t) (t, b)).1 = t :=
        processAliasPage_noop _ _ _ fun r hr => h r (mem_aliasPage hr)
      simp only [aliasLoop, hp, Bool.false_eq_true, if_false]
      rw [hst]
      exact ih _ t h

/-- C3: if the raw alias string yields fewer than two pieces the per-row
transform leaves the table untouched, and a table in which every row is
already normalized (fewer than two pieces everywhere) passes through the
whole alias pass unchanged. -/
theorem c3_alias_noop :
    (∀ (id : Nat) (s : String) (t : List AliasRow),
        (splitAliases s).length < 2 → migratePerformerAliases id s t = t) ∧
    (∀ t : List AliasRow, (∀ r ∈ t, (splitAliases r.aliasText).length < 2) →
        (migrate t).table = t) :=
  ⟨fun _ _ _ h => mpa_noop h, fun t h => aliasLoop_table_noop _ 0 t h⟩

/-- C3 witness: spec scenario 2 — the single alias "Solo" is left unchanged,
both by the per-row transform and by the whole pass. -/
theorem c3_alias_noop_witness :
    migratePerformerAliases 1 "Solo" [⟨1, "Solo"⟩] = [⟨1, "Solo"⟩] ∧
    (migrate [⟨1, "Solo"⟩]).table = [⟨1, "Solo"⟩] :=
  ⟨c3_alias_noop.1 1 "Solo" [⟨1, "Solo"⟩] (by decide),
   c3_alias_noop.2 [⟨1, "Solo"⟩] (by decide)⟩

/-- C1: with twelve performers named "Alice" (ids 1..12, null
disambiguation), the duplicate pass assigns the disambiguation "10" to BOTH
id 11 and id 12 — the `ORDER BY disambiguation DESC` max query compares the
TEXT column lexicographically, so among "1".."9","10" the maximum is "9" —
and the full migration then fails at index creation instead of producing the
gap-free sequence 1..11 the claim describes. -/
theorem c1_duplicate_numbering_collides :
    ((migrateDuplicatePerformers alice12).performers.filter
        (fun p => p.disambiguation == some "10")).map (·.id) = [11, 12] ∧
    (migrateDuplicatePerformers alice12).err = none ∧
    (post42 ⟨alice12, [], []⟩).2 =
      some (.wrapped "executing schema changes"
        (.uniqueViolation "performers_name_disambiguation_unique")) := by
  decide

/-- C9 counterexample: the error propagated for a non-numeric maximum
disambiguation is exactly `strconv.Atoi`'s error on the offending string;
two tables that differ in performer id and name produce the identical error
value, so the error carries no performer id/name context (only the raw
string).  No disambiguation is assigned (the state is unchanged). -/
theorem c9_counterexample :
    (migrateDuplicatePerformers badA).err = some (.atoiInvalid "x") ∧
    (migrateDuplicatePerformers badB).err = some (.atoiInvalid "x") ∧
    (migrateDuplicatePerformers badA).err = (migrateDuplicatePerformers badB).err ∧
    (migrateDuplicatePerformers badA).performers = badA ∧
    (post42 ⟨badA, [], []⟩).2 =
      some (.wrapped "migrating performer aliases" (.atoiInvalid "x")) := by
  decide

theorem mdp_ok {pid : Nat} {name : String} {t t' : List Performer}
    (h : migrateDuplicatePerformer pid name t = .ok t') :
    ∃ nd : Int, t' = setDisambiguation pid nd t := by
  unfold migrateDuplicatePerformer at h
  split at h
  · cases h
  · exact ⟨1, (Except.ok.injEq _ _).mp h.symm⟩
  · split at h
    · cases h
    · rename_i n _
      exact ⟨n + 1, (Except.ok.injEq _ _).mp h.symm⟩

theorem processDupPage_ok_map : ∀ (page t t' : List Performer),
    processDupPage page t = .ok t' →
    ∃ F : Performer → Performer, t' = t.map F ∧
      (∀ p, (F p).id = p.id) ∧
      (∀ p, (F p).name = p.name) ∧
      (∀ p, (F p).disambiguation.isNone = true → p.disambiguation.isNone = true) ∧
      (∀ p, p.id ∉ page.map (·.id) → F p = p) ∧
      (∀ p, p.id ∈ page.map (·.id) → (F p).disambiguation.isSome = true) := by
  intro page
  induction page with
  | nil =>
    intro t t' h
    unfold processDupPage at h
    have ht : t = t' := (Except.ok.injEq _ _).mp h
    subst ht
    exact ⟨id, by simp, fun _ => rfl, fun _ => rfl, fun _ h => h, fun _ _ => rfl,
      fun p hp => absurd hp (by simp)⟩
  | cons r rest ih =>
    intro t t' h
    unfold processDupPage at h
    split at h
    · cases h
    · rename_i t1 hmdp
      obtain ⟨nd, hnd⟩ := mdp_ok hmdp
      obtain ⟨F1, hF1t, hid1, hname1, hnone1, hframe1, hsome1⟩ := ih t1 t' h
      refine ⟨fun p => F1 (if p.id == r.id then { p with disambiguation := some (toString nd) } else p),
        ?_, ?_, ?_, ?_, ?_, ?_⟩
      · rw [hF1t, hnd]
        unfold setDisambiguation
        rw [List.map_map]
        rfl
      · intro p
        by_cases hb : p.id = r.id <;> simp [hb, hid1]
      · intro p
        by_cases hb : p.id = r.id <;> simp [hb, hname1]
      · intro p hp
        by_cases hb : p.id = r.id
        · have := hnone1 _ hp
          simp [hb] at this
        · simpa [hb] using hnone1 _ hp
      · intro p hp
        rw [List.map_cons] at hp
        have hpr : p.id ≠ r.id := fun hc => hp (List.mem_cons.mpr (Or.inl hc))
        have hprest : p.id ∉ rest.map (·.id) := fun hc => hp (List.mem_cons.mpr (Or.inr hc))
        show F1 (if (p.id == r.id) = true then { p with disambiguation := some (toString nd) } else p) = p
        rw [if_neg (by simpa using hpr)]
        exact hframe1 p hprest
      · intro p hp
        rw [List.map_cons] at hp
        show (F1 (if (p.id == r.id) = true then
          { p with disambiguation := some (toString nd) } else p)).disambiguation.isSome = true
        rcases List.mem_cons.mp hp with hb | hb
        · rw [if_pos (by simpa using hb)]
          cases hc : (F1 { p with disambiguation := some (toString nd) }).disambiguation with
          | none =>
            have h2 := hnone1 { p with disambiguation := some (toString nd) } (by rw [hc]; rfl)
            simp at h2
          | some v => rfl
        · have hid' : (if (p.id == r.id) = true then
              { p with disambiguation := some (toString nd) } else p).id = p.id := by
            by_cases hb2 : p.id = r.id <;> simp [hb2]
          apply hsome1
          rw [hid']
          exact hb

theorem mem_dupPage {t : List Performer} {r : Performer} (h : r ∈ dupPage t) :
    r ∈ t ∧ isDupRow t r = true := by
  unfold dupPage at h
  have h1 := List.mem_of_mem_take h
  have h2 := (List.perm_insertionSort perfLe _).mem_iff.mp h1
  exact ⟨List.mem_of_mem_filter h2, List.of_mem_filter h2⟩

theorem countP_le_pred {α : Type} : ∀ (l : List α) (q₁ q₂ : α → Bool),
    (∀ a ∈ l, q₂ a = true → q₁ a = true) → l.countP q₂ ≤ l.countP q₁ := by
  intro l
  induction l with
  | nil => intro q₁ q₂ _; exact Nat.le_refl _
  | cons a l ih =>
    intro q₁ q₂ h
    rw [List.countP_cons, List.countP_cons]
    have hrec := ih q₁ q₂ fun x hx => h x (List.mem_cons_of_mem a hx)
    by_cases h2 : q₂ a = true
    · rw [h2, h a (List.mem_cons_self a l) h2]
      simpa using hrec
    · rw [Bool.not_eq_true] at h2
      rw [h2]
      simp only [Bool.false_eq_true, if_false, Nat.add_zero]
      exact Nat.le_trans hrec (by by_cases h1 : q₁ a = true <;> simp [h1])

theorem countP_lt_pred {α : Type} : ∀ (l : List α) (q₁ q₂ : α → Bool) (x : α),
    (∀ a ∈ l, q₂ a = true → q₁ a = true) → x ∈ l → q₁ x = true → q₂ x = false →
    l.countP q₂ < l.countP q₁ := by
  intro l
  induction l with
  | nil => intro _ _ x _ hx; cases hx
  | cons a l ih =>
    intro q₁ q₂ x h hx h1 h2
    rw [List.countP_cons, List.countP_cons]
    have hle := countP_le_pred l q₁ q₂ fun y hy => h y (List.mem_cons_of_mem a hy)
    rcases List.mem_cons.mp hx with rfl | hx'
    · rw [h1, h2]
      simpa using Nat.lt_succ_of_le hle
    · have hlt := ih q₁ q₂ x (fun y hy => h y (List.mem_cons_of_mem a hy)) hx' h1 h2
      by_cases ha : q₂ a = true
      · rw [ha, h a (List.mem_cons_self a l) ha]
        simpa using hlt
      · rw [Bool.not_eq_true] at ha
        rw [ha]
        simp only [Bool.false_eq_true, if_false, Nat.add_zero]
        exact Nat.lt_of_lt_of_le hlt (by by_cases hq : q₁ a = true <;> simp [hq])

theorem isDupRow_map_le {t : List Performer} {F : Performer → Performer}
    (hid : ∀ p, (F p).id = p.id) (hname : ∀ p, (F p).name = p.name)
    (hnone : ∀ p, (F p).disambiguation.isNone = true → p.disambiguation.isNone = true)
    (a : Performer) (h : isDupRow (t.map F) (F a) = true) : isDupRow t a = true := by
  unfold isDupRow at h ⊢
  rw [Bool.and_eq_true] at h ⊢
  refine ⟨hnone a h.1, ?_⟩
  have h2 := h.2
  rw [List.any_map, List.any_eq_true] at h2
  rw [List.any_eq_true]
  obtain ⟨p2, hp2, hcond⟩ := h2
  refine ⟨p2, hp2, ?_⟩
  simpa [Function.comp, hid, hname] using hcond

theorem dupMatchCount_eq_countP (t : List Performer) :
    dupMatchCount t = t.countP (isDupRow t) :=
  (List.countP_eq_length_filter _ _).symm

theorem dupMatchCount_lt_of_page {t t' : List Performer}
    (hne : (dupPage t).isEmpty = false)
    (hok : processDupPage (dupPage t) t = .ok t') :
    dupMatchCount t' < dupMatchCount t := by
  obtain ⟨r0, page', hpage⟩ : ∃ r0 page', dupPage t = r0 :: page' := by
    cases hp : dupPage t with
    | nil => rw [hp] at hne; cases hne
    | cons a b => exact ⟨a, b, rfl⟩
  obtain ⟨F, hFt, hid, hname, hnone, _, hsome⟩ := processDupPage_ok_map _ _ _ hok
  have hr0mem : r0 ∈ dupPage t := by rw [hpage]; exact List.mem_cons_self _ _
  obtain ⟨hr0t, hr0dup⟩ := mem_dupPage hr0mem
  rw [dupMatchCount_eq_countP, dupMatchCount_eq_countP, hFt, List.countP_map]
  apply countP_lt_pred t (isDupRow t) (isDupRow (t.map F) ∘ F) r0
  · intro a _ ha
    exact isDupRow_map_le hid hname hnone a ha
  · exact hr0t
  · exact hr0dup
  · have hs : (F r0).disambiguation.isSome = true := by
      apply hsome
      rw [hpage, List.map_cons]
      exact List.mem_cons_self _ _
    show isDupRow (t.map F) (F r0) = false
    unfold isDupRow
    cases hd : (F r0).disambiguation with
    | none => rw [hd] at hs; cases hs
    | some v => simp [hd]

theorem dupPage_isEmpty_of_zero {t : List Performer} (h : dupMatchCount t = 0) :
    (dupPage t).isEmpty = true := by
  unfold dupMatchCount at h
  unfold dupPage
  rw [List.length_eq_zero.mp h]
  rfl

theorem dupLoop_completed : ∀ (c : Nat) (t : List Performer),
    dupMatchCount t ≤ c → (dupLoop (c + 1) t).completed = true := by
  intro c
  induction c with
  | zero =>
    intro t h
    have hemp := dupPage_isEmpty_of_zero (Nat.le_zero.mp h)
    simp [dupLoop, hemp]
  | succ n ih =>
    intro t h
    by_cases hp : (dupPage t).isEmpty = true
    · simp [dupLoop, hp]
    · cases hpr : processDupPage (dupPage t) t with
      | error e => simp [dupLoop, hp, hpr]
      | ok t' =>
        have hlt := dupMatchCount_lt_of_page (Bool.not_eq_true _ ▸ hp) hpr
        have hle : dupMatchCount t' ≤ n := Nat.lt_succ_iff.mp (Nat.lt_of_lt_of_le hlt h)
        simp only [dupLoop, hp, Bool.false_eq_true, if_false, hpr]
        exact ih t' hle

/-- C10: the duplicate pass terminates on every finite performers table even
though its page query carries no advancing id boundary: `dupMatchCount t + 1`
loop rounds always reach the natural exit (each committed non-empty page
assigns a non-null disambiguation to at least its first row and never makes
a non-matching row match, so the selection set strictly shrinks; an error
also exits the loop). -/
theorem c10_duplicate_pass_terminates (t : List Performer) :
    (migrateDuplicatePerformers t).completed = true :=
  dupLoop_completed (dupMatchCount t) t (Nat.le_refl _)

theorem dupLoop_succ_empty {n : Nat} {t : List Performer}
    (hp : (dupPage t).isEmpty = true) : dupLoop (n + 1) t = ⟨t, none, true, []⟩ := by
  simp [dupLoop, hp]

theorem dupLoop_succ_err {n : Nat} {t : List Performer} {e : Err}
    (hp : (dupPage t).isEmpty = false)
    (hpr : processDupPage (dupPage t) t = .error e) :
    dupLoop (n + 1) t = ⟨t, some e, true, dupPage t⟩ := by
  simp [dupLoop, hp, hpr]

theorem dupLoop_succ_ok {n : Nat} {t t' : List Performer}
    (hp : (dupPage t).isEmpty = false)
    (hpr : processDupPage (dupPage t) t = .ok t') :
    dupLoop (n + 1) t = ⟨(dupLoop n t').performers, (dupLoop n t').err,
      (dupLoop n t').completed, dupPage t ++ (dupLoop n t').fetched⟩ := by
  simp [dupLoop, hp, hpr]

theorem dupLoop_err_commit : ∀ (fuel : Nat) (t : List Performer) (e : Err),
    (dupLoop fuel t).err = some e →
    ∃ n, commitN n t = some (dupLoop fuel t).performers ∧
      processDupPage (dupPage (dupLoop fuel t).performers)
        (dupLoop fuel t).performers = .error e := by
  intro fuel
  induction fuel with
  | zero => intro t e h; cases h
  | succ m ih =>
    intro t e h
    by_cases hp : (dupPage t).isEmpty = true
    · rw [dupLoop_succ_empty hp] at h
      cases h
    · have hp' : (dupPage t).isEmpty = false := by
        revert hp; cases (dupPage t).isEmpty <;> simp
      cases hpr : processDupPage (dupPage t) t with
      | error e' =>
        rw [dupLoop_succ_err hp' hpr] at h ⊢
        obtain rfl : e' = e := by injection h
        exact ⟨0, rfl, hpr⟩
      | ok t' =>
        rw [dupLoop_succ_ok hp' hpr] at h ⊢
        obtain ⟨n, hc, hf⟩ := ih t' e h
        refine ⟨n + 1, ?_, hf⟩
        show commitN (n + 1) t = _
        simp only [commitN, hp', Bool.false_eq_true, if_false, hpr]
        exact hc

/-- C6: page-level atomicity and error propagation of the migration loops
(transactional behaviour of `withTxn` modelled from the spec).  Whenever the
duplicate pass propagates an error, the persisted table state is exactly a
whole number of previously committed pages — the failing page contributes no
write at all, since re-running that page from the persisted state
reproduces the error — and `post42` terminates with the error (wrapped as in
the source), leaving the earlier pages' effects in place. -/
theorem c6_page_atomicity : ∀ (db : DB) (e : Err),
    (migrateDuplicatePerformers db.performers).err = some e →
    (∃ n, commitN n db.performers =
        some (migrateDuplicatePerformers db.performers).performers) ∧
    processDupPage (dupPage (migrateDuplicatePerformers db.performers).performers)
        (migrateDuplicatePerformers db.performers).performers = .error e ∧
    (post42 db).2 = some (.wrapped "migrating performer aliases" e) ∧
    (post42 db).1.performers = (migrateDuplicatePerformers db.performers).performers := by
  intro db e h
  obtain ⟨n, hc, hf⟩ := dupLoop_err_commit _ _ _ h
  refine ⟨⟨n, hc⟩, hf, ?_, ?_⟩
  · simp [post42, post42T, h]
  · simp [post42, post42T, h]

/-- C6 witness: a concrete erroring duplicate pass (non-numeric maximum
disambiguation) shows zero committed pages, the error wrapped by `post42`,
and the performers table left untouched. -/
theorem c6_page_atomicity_witness :
    (post42 ⟨badA, [], []⟩).1.performers = (migrateDuplicatePerformers badA).performers :=
  (c6_page_atomicity ⟨badA, [], []⟩ (.atoiInvalid "x") (by decide)).2.2.2

/-- C9 (amended): when the maximum disambiguation fetched for the first
selected duplicate row is non-numeric, the duplicate pass fails fatally:
no disambiguation is assigned (the table is unchanged), and the error —
`strconv.Atoi`'s error naming only the offending string — propagates and
aborts the whole migration. -/
theorem c9_nonnumeric_aborts : ∀ (t : List Performer) (r : Performer)
    (rest : List Performer) (s : String),
    dupPage t = r :: rest →
    maxDisambiguation ((t.filter fun p => p.name == r.name).map (·.disambiguation)) =
      some (some s) →
    atoi s = none →
    migrateDuplicatePerformers t = ⟨t, some (.atoiInvalid s), true, r :: rest⟩ ∧
    ∀ db : DB, db.performers = t →
      (post42 db).2 = some (.wrapped "migrating performer aliases" (.atoiInvalid s)) ∧
      (post42 db).1.performers = t := by
  intro t r rest s hpage hmax hatoi
  have hmdp : migrateDuplicatePerformer r.id r.name t = .error (.atoiInvalid s) := by
    unfold migrateDuplicatePerformer
    rw [hmax]
    simp [hatoi]
  have hproc : processDupPage (dupPage t) t = .error (.atoiInvalid s) := by
    rw [hpage]
    unfold processDupPage
    rw [hmdp]
  have hne : (dupPage t).isEmpty = false := by rw [hpage]; rfl
  have hloop : migrateDuplicatePerformers t = ⟨t, some (.atoiInvalid s), true, r :: rest⟩ := by
    unfold migrateDuplicatePerformers
    rw [dupLoop_succ_err hne hproc, hpage]
  refine ⟨hloop, ?_⟩
  intro db hdb
  subst hdb
  constructor
  · simp [post42, post42T, hloop]
  · simp [post42, post42T, hloop]

/-- C9 amended witness: the duplicate pass on `badA` (maximum disambiguation
"x" for the name of the selected row id 2) aborts with the Atoi error and
leaves the table unchanged. -/
theorem c9_nonnumeric_aborts_witness :
    migrateDuplicatePerformers badA = ⟨badA, some (.atoiInvalid "x"), true, [⟨2, "Alice", none⟩]⟩ :=
  (c9_nonnumeric_aborts badA ⟨2, "Alice", none⟩ [] "x" (by decide) (by decide) (by decide)).1

/-- C7: the stages of `post42` run strictly in the order alias pass,
duplicate pass, schema finalization; the started-stage trace is a prefix of
the full sequence, finalization starts exactly when the duplicate pass
reported no error, a duplicate-pass error makes `post42` stop after the
second stage with that error (wrapped), and `post42` succeeds exactly when
both the duplicate pass and finalization report no error. -/
theorem c7_stage_order : ∀ db : DB,
    ((post42T db).2.2 = [.aliasPass, .duplicatePass, .schemaFinalize] ∨
      (post42T db).2.2 = [.aliasPass, .duplicatePass]) ∧
    (Stage.schemaFinalize ∈ (post42T db).2.2 ↔
      (migrateDuplicatePerformers db.performers).err = none) ∧
    (∀ e, (migrateDuplicatePerformers db.performers).err = some e →
      (post42T db).2.1 = some (.wrapped "migrating performer aliases" e) ∧
      (post42T db).2.2 = [.aliasPass, .duplicatePass]) ∧
    ((post42 db).2 = none ↔
      (migrateDuplicatePerformers db.performers).err = none ∧
      (executeSchemaChanges (migrateDuplicatePerformers db.performers).performers).1 = none) := by
  intro db
  cases herr : (migrateDuplicatePerformers db.performers).err with
  | some e => simp [post42, post42T, herr]
  | none =>
    cases hsc : (executeSchemaChanges (migrateDuplicatePerformers db.performers).performers).1 with
    | some e2 => simp [post42, post42T, herr, hsc]
    | none => simp [post42, post42T, herr, hsc]

/-- C7 witness: on a concrete erroring input the trace stops after the
duplicate pass. -/
theorem c7_stage_order_witness :
    (post42T ⟨badA, [], []⟩).2.2 = [.aliasPass, .duplicatePass] :=
  ((c7_stage_order ⟨badA, [], []⟩).2.2.1 (.atoiInvalid "x") (by decide)).2

theorem eq_of_mem_of_id_eq : ∀ (t : List Performer),
    (t.map (·.id)).Nodup → ∀ a ∈ t, ∀ b ∈ t, a.id = b.id → a = b := by
  intro t
  induction t with
  | nil => intro _ a ha; cases ha
  | cons c rest ih =>
    intro hnd a ha b hb hab
    rw [List.map_cons, List.nodup_cons] at hnd
    rcases List.mem_cons.mp ha with rfl | ha' <;> rcases List.mem_cons.mp hb with rfl | hb'
    · rfl
    · have : a.id ∈ rest.map (·.id) := by
        rw [hab]
        exact List.mem_map_of_mem (·.id) hb'
      exact absurd this hnd.1
    · have : b.id ∈ rest.map (·.id) := by
        rw [← hab]
        exact List.mem_map_of_mem (·.id) ha'
      exact absurd this hnd.1
    · exact ih hnd.2 a ha' b hb' hab

theorem dupPage_id_ne_canonical {t : List Performer} (hnd : (t.map (·.id)).Nodup)
    {r : Performer} (hr : r ∈ t)
    (hcanon : ∀ p2 ∈ t, r.name = p2.name → ¬ p2.id < r.id) :
    ∀ f ∈ dupPage t, f.id ≠ r.id := by
  intro f hf hc
  obtain ⟨hft, hfdup⟩ := mem_dupPage hf
  have hfr : f = r := eq_of_mem_of_id_eq t hnd f hft r hr hc
  subst hfr
  unfold isDupRow at hfdup
  rw [Bool.and_eq_true, List.any_eq_true] at hfdup
  obtain ⟨p2, hp2, hcond⟩ := hfdup.2
  rw [Bool.and_eq_true, beq_iff_eq, decide_eq_true_eq] at hcond
  exact hcanon p2 hp2 hcond.1 hcond.2

theorem dupLoop_canonical : ∀ (fuel : Nat) (t : List Performer) (i : Nat) (h : i < t.length),
    (t.map (·.id)).Nodup →
    (∀ p2 ∈ t, (t.get ⟨i, h⟩).name = p2.name → ¬ p2.id < (t.get ⟨i, h⟩).id) →
    (dupLoop fuel t).performers.length = t.length ∧
    (∀ h2 : i < (dupLoop fuel t).performers.length,
      (dupLoop fuel t).performers.get ⟨i, h2⟩ = t.get ⟨i, h⟩) ∧
    (∀ f ∈ (dupLoop fuel t).fetched, f.id ≠ (t.get ⟨i, h⟩).id) := by
  intro fuel
  induction fuel with
  | zero =>
    intro t i h _ _
    exact ⟨rfl, fun _ => rfl, fun f hf => absurd hf (by simp [dupLoop])⟩
  | succ m ih =>
    intro t i h hnd hcanon
    by_cases hp : (dupPage t).isEmpty = true
    · rw [dupLoop_succ_empty hp]
      exact ⟨rfl, fun _ => rfl, fun f hf => absurd hf (by simp)⟩
    · have hp' : (dupPage t).isEmpty = false := by
        revert hp; cases (dupPage t).isEmpty <;> simp
      cases hpr : processDupPage (dupPage t) t with
      | error e =>
        rw [dupLoop_succ_err hp' hpr]
        exact ⟨rfl, fun _ => rfl,
          dupPage_id_ne_canonical hnd (t.get_mem ..) hcanon⟩
      | ok t' =>
        obtain ⟨F, hFt, hid, hname, _, hframe, _⟩ := processDupPage_ok_map _ _ _ hpr
        have hlen' : t'.length = t.length := by rw [hFt]; exact List.length_map ..
        have h' : i < t'.length := hlen' ▸ h
        have hget' : t'.get ⟨i, h'⟩ = t.get ⟨i, h⟩ := by
          have hgm : t'.get ⟨i, h'⟩ = F (t.get ⟨i, h⟩) := by
            subst hFt
            simp [List.getElem_map]
          rw [hgm]
          apply hframe
          intro hc
          rw [List.mem_map] at hc
          obtain ⟨f, hfp, hfid⟩ := hc
          exact dupPage_id_ne_canonical hnd (t.get_mem ..) hcanon f hfp hfid
        have hnd' : (t'.map (·.id)).Nodup := by
          have : t'.map (·.id) = t.map (·.id) := by
            rw [hFt, List.map_map]
            exact List.map_congr_left fun a _ => hid a
          rw [this]
          exact hnd
        have hcanon' : ∀ p2 ∈ t', (t'.get ⟨i, h'⟩).name = p2.name →
            ¬ p2.id < (t'.get ⟨i, h'⟩).id := by
          intro p2 hp2 hn
          rw [hget'] at hn ⊢
          rw [hFt, List.mem_map] at hp2
          obtain ⟨q, hq, rfl⟩ := hp2
          rw [hname q] at hn
          rw [hid q]
          exact hcanon q hq hn
        obtain ⟨l1, l2, l3⟩ := ih t' i h' hnd' hcanon'
        rw [dupLoop_succ_ok hp' hpr]
        refine ⟨by rw [l1, hlen'], ?_, ?_⟩
        · intro h2
          rw [l2 h2, hget']
        · intro f hf
          rcases List.mem_append.mp hf with hf1 | hf2
          · exact dupPage_id_ne_canonical hnd (t.get_mem ..) hcanon f hf1
          · rw [← hget']
            exact l3 f hf2

/-- C8: a performer with no same-name row of smaller id (the canonical row
of its name) is never selected by the duplicate pass — no fetched row
carries its id — and its record is completely unchanged by the pass; in
particular a null disambiguation remains null. -/
theorem c8_canonical_untouched : ∀ (t : List Performer) (i : Nat) (h : i < t.length),
    (t.map (·.id)).Nodup →
    (∀ p2 ∈ t, (t.get ⟨i, h⟩).name = p2.name → ¬ p2.id < (t.get ⟨i, h⟩).id) →
    (migrateDuplicatePerformers t).performers.length = t.length ∧
    (∀ h2 : i < (migrateDuplicatePerformers t).performers.length,
      (migrateDuplicatePerformers t).performers.get ⟨i, h2⟩ = t.get ⟨i, h⟩) ∧
    ((t.get ⟨i, h⟩).disambiguation = none →
      ∀ h2 : i < (migrateDuplicatePerformers t).performers.length,
        ((migrateDuplicatePerformers t).performers.get ⟨i, h2⟩).disambiguation = none) ∧
    (∀ f ∈ (migrateDuplicatePerformers t).fetched, f.id ≠ (t.get ⟨i, h⟩).id) := by
  intro t i h hnd hcanon
  obtain ⟨l1, l2, l3⟩ := dupLoop_canonical (dupMatchCount t + 1) t i h hnd hcanon
  refine ⟨l1, l2, ?_, l3⟩
  intro hdis h2
  have hg : (migrateDuplicatePerformers t).performers.get ⟨i, h2⟩ = t.get ⟨i, h⟩ := l2 h2
  rw [hg]
  exact hdis

/-- C8 witness: in spec scenario 3 the canonical row id 1 of name "Alice" is
returned unchanged by the duplicate pass. -/
theorem c8_canonical_untouched_witness :
    (migrateDuplicatePerformers alice3).performers.length = alice3.length :=
  (c8_canonical_untouched alice3 0 (by decide) (by decide) (by decide)).1

theorem hasDupKeys_eq_false_iff {K : Type} [DecidableEq K] :
    ∀ l : List K, hasDupKeys l = false ↔ l.Nodup := by
  intro l
  induction l with
  | nil => simp [hasDupKeys]
  | cons k ks ih =>
    by_cases hk : k ∈ ks
    · simp [hasDupKeys, hk, List.nodup_cons]
    · simp [hasDupKeys, hk, List.nodup_cons, ih]

theorem nodup_filterMap_pairwise {α β : Type} [DecidableEq β] {f : α → Option β} :
    ∀ l : List α, (l.filterMap f).Nodup →
      l.Pairwise fun a b => ∀ x, f a = some x → f b ≠ some x := by
  intro l
  induction l with
  | nil => intro _; exact List.Pairwise.nil
  | cons a l ih =>
    intro hnd
    rw [List.filterMap_cons] at hnd
    cases hf : f a with
    | none =>
      rw [hf] at hnd
      refine List.Pairwise.cons ?_ (ih hnd)
      intro b _ x hax
      rw [hf] at hax
      cases hax
    | some x =>
      rw [hf] at hnd
      rw [List.nodup_cons] at hnd
      refine List.Pairwise.cons ?_ (ih hnd.2)
      intro b hb y hay hby
      rw [hf] at hay
      obtain rfl : x = y := by injection hay
      exact hnd.1 (List.mem_filterMap.mpr ⟨b, hb, hby⟩)

/-- C4: if `post42` reports success then in the final performers table no
two rows with non-null disambiguation share `(name, disambiguation)` and no
two rows with null disambiguation share `name` (the partial unique indexes
installed by schema finalization could only be created because the key
lists are duplicate-free). -/
theorem c4_unique_after_success : ∀ db : DB, (post42 db).2 = none →
    (nameDisKeys (post42 db).1.performers).Nodup ∧
    (nullNameKeys (post42 db).1.performers).Nodup ∧
    (post42 db).1.performers.Pairwise (fun p q =>
      ∀ d, p.disambiguation = some d → p.name = q.name → q.disambiguation ≠ some d) ∧
    (post42 db).1.performers.Pairwise (fun p q =>
      p.disambiguation = none → q.disambiguation = none → p.name ≠ q.name) := by
  intro db hok
  have hsc : (executeSchemaChanges (migrateDuplicatePerformers db.performers).performers).1 = none ∧
      (post42 db).1.performers = (migrateDuplicatePerformers db.performers).performers := by
    cases herr : (migrateDuplicatePerformers db.performers).err with
    | some e => simp [post42, post42T, herr] at hok
    | none =>
      cases hs : (executeSchemaChanges (migrateDuplicatePerformers db.performers).performers).1 with
      | some e2 => simp [post42, post42T, herr, hs] at hok
      | none => exact ⟨rfl, by simp [post42, post42T, herr, hs]⟩
  set tf := (migrateDuplicatePerformers db.performers).performers with htf
  have hnd : (nameDisKeys tf).Nodup ∧ (nullNameKeys tf).Nodup := by
    have h1 := hsc.1
    unfold executeSchemaChanges at h1
    by_cases hd1 : hasDupKeys (nameDisKeys tf) = true
    · rw [if_pos hd1] at h1; cases h1
    · have hd1' : hasDupKeys (nameDisKeys tf) = false := by
        revert hd1; cases hasDupKeys (nameDisKeys tf) <;> simp
      by_cases hd2 : hasDupKeys (nullNameKeys tf) = true
      · rw [if_neg (by rw [hd1']; simp)] at h1
        rw [if_pos hd2] at h1
        cases h1
      · have hd2' : hasDupKeys (nullNameKeys tf) = false := by
          revert hd2; cases hasDupKeys (nullNameKeys tf) <;> simp
        exact ⟨(hasDupKeys_eq_false_iff _).mp hd1', (hasDupKeys_eq_false_iff _).mp hd2'⟩
  rw [hsc.2]
  refine ⟨hnd.1, hnd.2, ?_, ?_⟩
  · have hpw := nodup_filterMap_pairwise (f := fun p : Performer =>
      p.disambiguation.map fun d => (p.name, d)) tf hnd.1
    refine hpw.imp ?_
    intro p q hpq d hpd hpqname hqd
    exact hpq (p.name, d) (by simp [hpd]) (by simp [hqd, hpqname])
  · have hpw := nodup_filterMap_pairwise (f := fun p : Performer =>
      if p.disambiguation.isNone then some p.name else none) tf hnd.2
    refine hpw.imp ?_
    intro p q hpq hpd hqd hname
    exact hpq p.name (by simp [hpd]) (by simp [hqd, hname])

/-- C4 witness: scenario 3 runs to success and the final key lists are
duplicate-free. -/
theorem c4_unique_after_success_witness :
    (nameDisKeys (post42 ⟨alice3, [], []⟩).1.performers).Nodup :=
  (c4_unique_after_success ⟨alice3, [], []⟩ (by decide)).1

theorem mpa_filter_ne (id : Nat) (s : String) (t : List AliasRow) (q : Nat)
    (hq : q ≠ id) :
    (migratePerformerAliases id s t).filter (fun r => r.performer_id == q) =
      t.filter (fun r => r.performer_id == q) := by
  unfold migratePerformerAliases
  by_cases h2 : (splitAliases s).length < 2
  · rw [if_pos h2]
  · rw [if_neg h2, List.filter_append, List.filter_map]
    have hnews : (strAppendUniques [] ((splitAliases s).map trimSpace)).filter
        ((fun r : AliasRow => r.performer_id == q) ∘ fun a => ⟨id, a⟩) = [] := by
      rw [List.filter_eq_nil_iff]
      intro a _
      simpa using Ne.symm hq
    rw [hnews, List.map_nil, List.append_nil, List.filter_filter]
    apply List.filter_congr
    intro r _
    by_cases hr : r.performer_id = q
    · have : (r.performer_id != id) = true := by simpa using (hr ▸ hq : r.performer_id ≠ id)
      rw [this, Bool.and_true]
    · have : (r.performer_id == q) = false := by simpa using hr
      rw [this, Bool.false_and]

theorem mpa_filter_eq (id : Nat) (s : String) (t : List AliasRow)
    (h2 : ¬ (splitAliases s).length < 2) :
    (migratePerformerAliases id s t).filter (fun r => r.performer_id == id) =
      (normalizedAliases s).map (fun a => ⟨id, a⟩) := by
  unfold migratePerformerAliases
  rw [if_neg h2, List.filter_append, List.filter_filter]
  have h1 : t.filter (fun a => (a.performer_id == id) && (a.performer_id != id)) = [] := by
    rw [List.filter_eq_nil_iff]
    intro a _
    by_cases hr : a.performer_id = id <;> simp [hr]
  rw [h1, List.nil_append, List.filter_map]
  have h3 : (strAppendUniques [] ((splitAliases s).map trimSpace)).filter
      ((fun r : AliasRow => r.performer_id == id) ∘ fun a => ⟨id, a⟩) =
      strAppendUniques [] ((splitAliases s).map trimSpace) := by
    rw [List.filter_eq_self]
    intro a _
    simp
  rw [h3]
  rfl

theorem mpa_filterGT (id : Nat) (s : String) (t : List AliasRow) (b : Nat)
    (hb : id ≤ b) :
    filterGT b (migratePerformerAliases id s t) = filterGT b t := by
  unfold migratePerformerAliases filterGT
  by_cases h2 : (splitAliases s).length < 2
  · rw [if_pos h2]
  · rw [if_neg h2, List.filter_append, List.filter_map]
    have hnews : (strAppendUniques [] ((splitAliases s).map trimSpace)).filter
        ((fun r : AliasRow => decide (b < r.performer_id)) ∘ fun a => ⟨id, a⟩) = [] := by
      rw [List.filter_eq_nil_iff]
      intro a _
      simpa using Nat.not_lt.mpr hb
    rw [hnews, List.map_nil, List.append_nil, List.filter_filter]
    apply List.filter_congr
    intro r _
    by_cases hr : b < r.performer_id
    · have hne : (r.performer_id != id) = true := by
        simpa using Nat.ne_of_gt (Nat.lt_of_le_of_lt hb hr)
      rw [hne, Bool.and_true]
    · have : decide (b < r.performer_id) = false := by simpa using hr
      rw [this, Bool.false_and]

theorem processAliasPage_snd : ∀ (page : List AliasRow) (t : List AliasRow) (l : Nat)
    (h : page ≠ []),
    (processAliasPage page (t, l)).2 = (page.getLast h).performer_id := by
  intro page
  induction page with
  | nil => intro t l h; exact absurd rfl h
  | cons r rest ih =>
    intro t l h
    rw [processAliasPage_cons]
    cases rest with
    | nil => rfl
    | cons a as =>
      have hrne : (a :: as) ≠ [] := by simp
      rw [ih _ _ hrne, List.getLast_cons hrne]

theorem processAliasPage_frame : ∀ (page t : List AliasRow) (l q : Nat),
    (∀ r ∈ page, r.performer_id ≠ q) →
    ((processAliasPage page (t, l)).1).filter (fun x => x.performer_id == q) =
      t.filter (fun x => x.performer_id == q) := by
  intro page
  induction page with
  | nil => intro t l q _; rfl
  | cons r rest ih =>
    intro t l q h
    rw [processAliasPage_cons]
    rw [ih _ _ q fun x hx => h x (List.mem_cons_of_mem r hx)]
    exact mpa_filter_ne _ _ _ _ (Ne.symm (h r (List.mem_cons_self r rest)))

theorem processAliasPage_filterGT : ∀ (page t : List AliasRow) (l B : Nat),
    (∀ r ∈ page, r.performer_id ≤ B) →
    filterGT B (processAliasPage page (t, l)).1 = filterGT B t := by
  intro page
  induction page with
  | nil => intro t l B _; rfl
  | cons r rest ih =>
    intro t l B h
    rw [processAliasPage_cons]
    rw [ih _ _ B fun x hx => h x (List.mem_cons_of_mem r hx)]
    exact mpa_filterGT _ _ _ _ (h r (List.mem_cons_self r rest))

theorem processAliasPage_at : ∀ (page t : List AliasRow) (l : Nat) (r : AliasRow),
    (page.map (·.performer_id)).Nodup → r ∈ page →
    t.filter (fun x => x.performer_id == r.performer_id) = [r] →
    ((processAliasPage page (t, l)).1).filter (fun x => x.performer_id == r.performer_id) =
      normalizedFor r := by
  intro page
  induction page with
  | nil => intro t l r _ hr; cases hr
  | cons r0 rest ih =>
    intro t l r hnd hr hsingle
    rw [List.map_cons, List.nodup_cons] at hnd
    rw [processAliasPage_cons]
    rcases List.mem_cons.mp hr with rfl | hr'
    · have hrest_ne : ∀ x ∈ rest, x.performer_id ≠ r.performer_id := by
        intro x hx hc
        exact hnd.1 (hc ▸ List.mem_map_of_mem (·.performer_id) hx)
      rw [processAliasPage_frame rest _ _ _ hrest_ne]
      by_cases h2 : (splitAliases r.aliasText).length < 2
      · rw [mpa_noop h2, hsingle]
        unfold normalizedFor
        rw [if_pos h2]
      · rw [mpa_filter_eq _ _ _ h2]
        unfold normalizedFor
        rw [if_neg h2]
    · have hne : r.performer_id ≠ r0.performer_id := by
        intro hc
        exact hnd.1 (hc ▸ List.mem_map_of_mem (·.performer_id) hr')
      apply ih _ _ r hnd.2 hr'
      rw [mpa_filter_ne _ _ _ _ hne]
      exact hsingle

theorem lastMax : ∀ (L : List AliasRow) (h : L ≠ []), L.Pairwise aliasLe →
    ∀ x ∈ L, x.performer_id ≤ (L.getLast h).performer_id := by
  intro L
  induction L with
  | nil => intro h; exact absurd rfl h
  | cons a L ih =>
    intro h hpw x hx
    cases L with
    | nil =>
      rcases List.mem_cons.mp hx with rfl | hx'
      · exact Nat.le_refl _
      · cases hx'
    | cons b M =>
      have hLne : (b :: M) ≠ [] := by simp
      rw [List.getLast_cons hLne]
      rw [List.pairwise_cons] at hpw
      rcases List.mem_cons.mp hx with rfl | hx'
      · exact hpw.1 _ (List.getLast_mem hLne)
      · exact ih hLne hpw.2 x hx'

theorem pairwise_lt_of_le_nodup {S : List AliasRow} (hle : S.Pairwise aliasLe)
    (hnd : (S.map (·.performer_id)).Nodup) : S.Pairwise aliasLt := by
  have hne : S.Pairwise fun a b => a.performer_id ≠ b.performer_id :=
    List.pairwise_map.mp hnd
  exact (hle.and hne).imp fun h => Nat.lt_of_le_of_ne h.1 h.2

theorem strict_sorted_drop_eq_filter : ∀ (S : List AliasRow) (n : Nat) (l2 : Nat)
    (hn : S.take n ≠ []), S.Pairwise aliasLt →
    l2 = ((S.take n).getLast hn).performer_id →
    S.filter (fun r => decide (l2 < r.performer_id)) = S.drop n := by
  intro S n l2 hn hlt hl2
  have hsplit := List.take_append_drop n S
  have hpw : (S.take n ++ S.drop n).Pairwise aliasLt := by rw [hsplit]; exact hlt
  rw [List.pairwise_append] at hpw
  obtain ⟨hp1, _, hcross⟩ := hpw
  conv_lhs => rw [← hsplit]
  rw [List.filter_append]
  have h1 : (S.take n).filter (fun r => decide (l2 < r.performer_id)) = [] := by
    rw [List.filter_eq_nil_iff]
    intro a ha
    have hle := lastMax (S.take n) hn (hp1.imp fun h => Nat.le_of_lt h) a ha
    rw [← hl2] at hle
    simpa using Nat.not_lt.mpr hle
  have h2 : (S.drop n).filter (fun r => decide (l2 < r.performer_id)) = S.drop n := by
    rw [List.filter_eq_self]
    intro a ha
    rw [hl2]
    exact decide_eq_true (hcross _ (List.getLast_mem hn) a ha)
  rw [h1, h2, List.nil_append]

theorem filter_eq_single_of_nodup : ∀ (l : List AliasRow) (r : AliasRow),
    (l.map (·.performer_id)).Nodup → r ∈ l →
    l.filter (fun x => x.performer_id == r.performer_id) = [r] := by
  intro l
  induction l with
  | nil => intro r _ hr; cases hr
  | cons a l ih =>
    intro r hnd hr
    rw [List.map_cons, List.nodup_cons] at hnd
    rcases List.mem_cons.mp hr with rfl | hr'
    · rw [List.filter_cons_of_pos (by simp)]
      have hnil : l.filter (fun x => x.performer_id == r.performer_id) = [] := by
        rw [List.filter_eq_nil_iff]
        intro x hx hc
        rw [beq_iff_eq] at hc
        exact hnd.1 (hc ▸ List.mem_map_of_mem (·.performer_id) hx)
      rw [hnil]
    · have hane : (a.performer_id == r.performer_id) = false := by
        have : a.performer_id ≠ r.performer_id := by
          intro hc
          exact hnd.1 (hc ▸ List.mem_map_of_mem (·.performer_id) hr')
        simpa using this
      rw [List.filter_cons_of_neg (by rw [hane]; exact Bool.false_ne_true)]
      exact ih r hnd.2 hr'

theorem strict_sorted_perm_eq {l1 l2 : List AliasRow} (hp : List.Perm l1 l2)
    (h1 : l1.Pairwise aliasLt) (h2 : l2.Pairwise aliasLt) : l1 = l2 :=
  List.eq_of_perm_of_sorted hp h1 h2

theorem getLast_eq_of_eq {l1 l2 : List AliasRow} (h : l1 = l2) (h1 : l1 ≠ [])
    (h2 : l2 ≠ []) : l1.getLast h1 = l2.getLast h2 := by
  subst h
  rfl

theorem aliasPage_eq {b : Nat} {t : List AliasRow} (hb : b = 0 → filterGT 0 t = t) :
    aliasPage b t = ((filterGT b t).insertionSort aliasLe).take limit := by
  unfold aliasPage
  by_cases h0 : b = 0
  · subst h0
    rw [if_pos rfl, hb rfl]
  · rw [if_neg h0]

theorem aliasLoop_succ_empty {n b : Nat} {t : List AliasRow}
    (hp : (aliasPage b t).isEmpty = true) : aliasLoop (n + 1) b t = ⟨t, [], true⟩ := by
  simp [aliasLoop, hp]

theorem aliasLoop_succ_ne {n b : Nat} {t : List AliasRow}
    (hp : (aliasPage b t).isEmpty = false) :
    aliasLoop (n + 1) b t =
      ⟨(aliasLoop n (processAliasPage (aliasPage b t) (t, b)).2
          (processAliasPage (aliasPage b t) (t, b)).1).table,
        aliasPage b t ++ (aliasLoop n (processAliasPage (aliasPage b t) (t, b)).2
          (processAliasPage (aliasPage b t) (t, b)).1).fetched,
        (aliasLoop n (processAliasPage (aliasPage b t) (t, b)).2
          (processAliasPage (aliasPage b t) (t, b)).1).completed⟩ := by
  simp [aliasLoop, hp]

theorem aliasLoop_main : ∀ (fuel b : Nat) (t : List AliasRow),
    ((filterGT b t).map (·.performer_id)).Nodup →
    (b = 0 → filterGT 0 t = t) →
    (filterGT b t).length + 1 ≤ fuel →
    (aliasLoop fuel b t).completed = true ∧
    (aliasLoop fuel b t).fetched = (filterGT b t).insertionSort aliasLe ∧
    (∀ r ∈ filterGT b t,
      (aliasLoop fuel b t).table.filter (fun x => x.performer_id == r.performer_id) =
        normalizedFor r) ∧
    (∀ q ≤ b, (aliasLoop fuel b t).table.filter (fun x => x.performer_id == q) =
        t.filter (fun x => x.performer_id == q)) := by
  intro fuel
  induction fuel with
  | zero =>
    intro b t _ _ hf
    exact absurd hf (Nat.not_succ_le_zero _)
  | succ m ih =>
    intro b t hnd hb hf
    have hpage : aliasPage b t = ((filterGT b t).insertionSort aliasLe).take limit :=
      aliasPage_eq hb
    have hSperm : List.Perm ((filterGT b t).insertionSort aliasLe) (filterGT b t) :=
      List.perm_insertionSort aliasLe _
    have hSsorted : ((filterGT b t).insertionSort aliasLe).Pairwise aliasLe :=
      List.sorted_insertionSort aliasLe _
    have hSnd : (((filterGT b t).insertionSort aliasLe).map (·.performer_id)).Nodup :=
      ((hSperm.map (·.performer_id)).nodup_iff).mpr hnd
    have hSlt : ((filterGT b t).insertionSort aliasLe).Pairwise aliasLt :=
      pairwise_lt_of_le_nodup hSsorted hSnd
    cases hSe : (filterGT b t).insertionSort aliasLe with
    | nil =>
      have hfempty : filterGT b t = [] := by
        have h := hSperm
        rw [hSe] at h
        exact (h.symm).eq_nil
      have hpe : (aliasPage b t).isEmpty = true := by
        rw [hpage, hSe, List.take_nil]
        rfl
      rw [aliasLoop_succ_empty hpe]
      refine ⟨rfl, rfl, ?_, fun q _ => rfl⟩
      intro r hr
      rw [hfempty] at hr
      cases hr
    | cons s0 S2 =>
      have htake_cons : ((filterGT b t).insertionSort aliasLe).take limit =
          s0 :: S2.take 999 := by
        rw [hSe, show limit = 999 + 1 from rfl, List.take_succ_cons]
      have hpagecons : aliasPage b t = s0 :: S2.take 999 := by rw [hpage, htake_cons]
      have hne : aliasPage b t ≠ [] := by rw [hpagecons]; simp
      have hpne : (aliasPage b t).isEmpty = false := by rw [hpagecons]; rfl
      have htakene : ((filterGT b t).insertionSort aliasLe).take limit ≠ [] := by
        rw [htake_cons]; simp
      set lp := ((aliasPage b t).getLast hne).performer_id with hlp
      have hsnd : (processAliasPage (aliasPage b t) (t, b)).2 = lp :=
        processAliasPage_snd _ _ _ hne
      have hpagesub : ∀ r ∈ aliasPage b t, r ∈ filterGT b t := by
        intro r hr
        rw [hpage] at hr
        exact hSperm.mem_iff.mp (List.mem_of_mem_take hr)
      have hGTlt : ∀ r ∈ filterGT b t, b < r.performer_id := by
        intro r hr
        unfold filterGT at hr
        exact of_decide_eq_true (List.mem_filter.mp hr).2
      have hpage_le : (aliasPage b t).Pairwise aliasLe := by
        rw [hpage]
        exact hSsorted.sublist (List.take_sublist _ _)
      have hub : ∀ r ∈ aliasPage b t, r.performer_id ≤ lp := fun r hr =>
        lastMax _ hne hpage_le r hr
      have hblp : b < lp := hGTlt _ (hpagesub _ (List.getLast_mem hne))
      have hframe : filterGT lp (processAliasPage (aliasPage b t) (t, b)).1 =
          filterGT lp t := processAliasPage_filterGT _ _ _ _ hub
      have hGTcomp : filterGT lp (filterGT b t) = filterGT lp t := by
        unfold filterGT
        rw [List.filter_filter]
        apply List.filter_congr
        intro r _
        by_cases hr : lp < r.performer_id
        · have hbr : b < r.performer_id := Nat.lt_trans hblp hr
          simp [hr, hbr]
        · simp [hr]
      have hlp2 : lp =
          ((((filterGT b t).insertionSort aliasLe).take limit).getLast htakene).performer_id := by
        rw [hlp]
        exact congrArg (·.performer_id) (getLast_eq_of_eq hpage hne htakene)
      have hdrop := strict_sorted_drop_eq_filter _ limit lp htakene hSlt hlp2
      have hnextNd : ((filterGT lp t).map (·.performer_id)).Nodup := by
        rw [← hGTcomp]
        exact hnd.sublist ((List.filter_sublist _).map _)
      have hsortnext : (filterGT lp t).insertionSort aliasLe =
          ((filterGT b t).insertionSort aliasLe).drop limit := by
        apply strict_sorted_perm_eq
        · apply List.Perm.trans (List.perm_insertionSort aliasLe _)
          rw [← hGTcomp, ← hdrop]
          exact hSperm.symm.filter _
        · exact pairwise_lt_of_le_nodup (List.sorted_insertionSort aliasLe _)
            (((List.perm_insertionSort aliasLe _).map (·.performer_id)).nodup_iff.mpr hnextNd)
        · exact hSlt.sublist (List.drop_sublist _ _)
      have hlen1 : (filterGT lp t).length =
          ((filterGT b t).insertionSort aliasLe).length - limit := by
        have e1 : (filterGT lp t).length = ((filterGT lp t).insertionSort aliasLe).length :=
          ((List.perm_insertionSort aliasLe _).length_eq).symm
        rw [e1, hsortnext, List.length_drop]
      have hlenS : ((filterGT b t).insertionSort aliasLe).length = (filterGT b t).length :=
        hSperm.length_eq
      have hSpos : 1 ≤ ((filterGT b t).insertionSort aliasLe).length := by
        rw [hSe]; simp
      have hfuel : (filterGT lp t).length + 1 ≤ m := by
        have hl1 : (1 : Nat) ≤ limit := by norm_num [limit]
        omega
      obtain ⟨c1, c2, c3, c4⟩ := ih lp (processAliasPage (aliasPage b t) (t, b)).1
        (by rw [hframe]; exact hnextNd)
        (fun h0 => absurd (h0 ▸ hblp) (Nat.not_lt_zero b))
        (by rw [hframe]; exact hfuel)
      rw [hframe] at c3
      rw [aliasLoop_succ_ne hpne, hsnd]
      refine ⟨c1, ?_, ?_, ?_⟩
      · show aliasPage b t ++ _ = _
        rw [c2, hframe, hsortnext, hpage, List.take_append_drop]
        exact hSe
      · intro r hr
        have hrS : r ∈ ((filterGT b t).insertionSort aliasLe).take limit ++
            ((filterGT b t).insertionSort aliasLe).drop limit := by
          rw [List.take_append_drop limit _]
          exact hSperm.mem_iff.mpr hr
        rcases List.mem_append.mp hrS with hrp | hrd
        · have hrpage : r ∈ aliasPage b t := by rw [hpage]; exact hrp
          have hpagend : ((aliasPage b t).map (·.performer_id)).Nodup := by
            rw [hpage]
            exact hSnd.sublist ((List.take_sublist _ _).map _)
          have hsingleF : (filterGT b t).filter
              (fun x => x.performer_id == r.performer_id) = [r] :=
            filter_eq_single_of_nodup _ r hnd hr
          have hsingle : t.filter (fun x => x.performer_id == r.performer_id) = [r] := by
            have hq2 : ∀ x ∈ t, (x.performer_id == r.performer_id) =
                ((x.performer_id == r.performer_id) && decide (b < x.performer_id)) := by
              intro x _
              by_cases hx : x.performer_id = r.performer_id
              · have hbr : b < r.performer_id := hGTlt r hr
                simp [hx, hbr]
              · simp [hx]
            rw [List.filter_congr hq2, ← List.filter_filter]
            exact hsingleF
          have hfold := processAliasPage_at (aliasPage b t) t b r hpagend hrpage hsingle
          rw [c4 r.performer_id (hub r hrpage)]
          exact hfold
        · have hrnext : r ∈ filterGT lp t := by
            rw [← hsortnext] at hrd
            exact (List.perm_insertionSort aliasLe _).mem_iff.mp hrd
          exact c3 r hrnext
      · intro q hq
        have hqlp : q ≤ lp := Nat.le_of_lt (Nat.lt_of_le_of_lt hq hblp)
        rw [c4 q hqlp]
        exact processAliasPage_frame _ _ _ _ fun r hrp =>
          Nat.ne_of_gt (Nat.lt_of_le_of_lt hq (hGTlt r (hpagesub r hrp)))

theorem toList_mk (l : List Char) : (⟨l⟩ : String).toList = l := rfl

theorem fieldsFuncAux_chars (p : Char → Bool) : ∀ (l acc : List Char),
    (∀ c ∈ acc, p c = false) →
    ∀ piece ∈ fieldsFuncAux p l acc, ∀ c ∈ piece, p c = false := by
  intro l
  induction l with
  | nil =>
    intro acc hacc piece hp c hc
    unfold fieldsFuncAux at hp
    by_cases he : acc.isEmpty = true
    · rw [if_pos he] at hp
      cases hp
    · rw [if_neg he] at hp
      rw [List.mem_singleton] at hp
      subst hp
      exact hacc c (List.mem_reverse.mp hc)
  | cons ch cs ih =>
    intro acc hacc piece hp c hc
    unfold fieldsFuncAux at hp
    by_cases hch : p ch = true
    · rw [if_pos hch] at hp
      by_cases he : acc.isEmpty = true
      · rw [if_pos he] at hp
        exact ih [] (fun x hx => absurd hx (List.not_mem_nil x)) piece hp c hc
      · rw [if_neg he] at hp
        rcases List.mem_cons.mp hp with rfl | hp'
        · exact hacc c (List.mem_reverse.mp hc)
        · exact ih [] (fun x hx => absurd hx (List.not_mem_nil x)) piece hp' c hc
    · rw [if_neg hch] at hp
      refine ih (ch :: acc) ?_ piece hp c hc
      intro x hx
      rcases List.mem_cons.mp hx with rfl | hx'
      · revert hch
        cases p x <;> simp
      · exact hacc x hx'

theorem splitAliases_no_delim : ∀ (s piece : String),
    piece ∈ splitAliases s → ∀ c ∈ piece.toList, isDelim c = false := by
  intro s piece hp c hc
  unfold splitAliases fieldsFunc at hp
  rw [List.mem_map] at hp
  obtain ⟨cs, hcs, rfl⟩ := hp
  rw [toList_mk] at hc
  exact fieldsFuncAux_chars isDelim s.toList []
    (fun x hx => absurd hx (List.not_mem_nil x)) cs hcs c hc

theorem trimSpace_chars_subset : ∀ (s : String) (c : Char),
    c ∈ (trimSpace s).toList → c ∈ s.toList := by
  intro s c hc
  unfold trimSpace at hc
  rw [toList_mk, List.mem_reverse] at hc
  have h1 := (List.dropWhile_sublist _).mem hc
  rw [List.mem_reverse] at h1
  exact (List.dropWhile_sublist _).mem h1

theorem strAppendUniques_cons (dest : List String) (s : String) (rest : List String) :
    strAppendUniques dest (s :: rest) =
      strAppendUniques (if s ∈ dest then dest else dest ++ [s]) rest := rfl

theorem strAppendUniques_subset : ∀ (l dest : List String) (a : String),
    a ∈ strAppendUniques dest l → a ∈ dest ∨ a ∈ l := by
  intro l
  induction l with
  | nil => intro dest a h; exact Or.inl h
  | cons s rest ih =>
    intro dest a h
    rw [strAppendUniques_cons] at h
    rcases ih _ a h with hd | hr
    · by_cases hs : s ∈ dest
      · rw [if_pos hs] at hd
        exact Or.inl hd
      · rw [if_neg hs] at hd
        rcases List.mem_append.mp hd with h1 | h2
        · exact Or.inl h1
        · exact Or.inr (List.mem_cons.mpr (Or.inl (List.mem_singleton.mp h2)))
    · exact Or.inr (List.mem_cons_of_mem s hr)

theorem normalizedAliases_no_delim : ∀ (s a : String),
    a ∈ normalizedAliases s → ∀ c ∈ a.toList, isDelim c = false := by
  intro s a ha c hc
  unfold normalizedAliases at ha
  rcases strAppendUniques_subset _ _ _ ha with h0 | h1
  · cases h0
  · rw [List.mem_map] at h1
    obtain ⟨piece, hpiece, rfl⟩ := h1
    exact splitAliases_no_delim s piece hpiece c (trimSpace_chars_subset piece c hc)

theorem filterGT_zero {t : List AliasRow} (hpos : ∀ r ∈ t, 0 < r.performer_id) :
    filterGT 0 t = t := by
  unfold filterGT
  rw [List.filter_eq_self]
  intro r hr
  exact decide_eq_true (hpos r hr)

/-- C5 (amended): when the rows of the alias table at pass start carry
pairwise-distinct positive keys, the pass fetches exactly the starting rows
— each exactly once, in ascending key order — and reaches its natural exit. -/
theorem c5_pagination_covers : ∀ t : List AliasRow,
    (t.map (·.performer_id)).Nodup → (∀ r ∈ t, 0 < r.performer_id) →
    (migrate t).completed = true ∧
    List.Perm (migrate t).fetched t ∧
    (migrate t).fetched.Pairwise aliasLe := by
  intro t hnd hpos
  have h0 : filterGT 0 t = t := filterGT_zero hpos
  obtain ⟨c1, c2, _, _⟩ := aliasLoop_main (t.length + 1) 0 t (by rw [h0]; exact hnd)
    (fun _ => h0) (by rw [h0])
  unfold migrate
  refine ⟨c1, ?_, ?_⟩
  · rw [c2, h0]
    exact List.perm_insertionSort aliasLe t
  · rw [c2]
    exact List.sorted_insertionSort aliasLe _

/-- C5 amended witness: a two-row table with distinct positive keys is
covered completely. -/
theorem c5_pagination_covers_witness :
    (migrate [⟨1, "a"⟩, ⟨2, "b"⟩]).completed = true :=
  (c5_pagination_covers [⟨1, "a"⟩, ⟨2, "b"⟩] (by decide) (by decide)).1

/-- C5 counterexample: in `c5Table` (1001 rows, two of which share the
pagination key 1000) the row `⟨1000, "y"⟩` exists at pass start but is never
fetched: the first page of 1000 rows ends at the first key-1000 row, the
boundary advances to 1000, and the query `performer_id > 1000` skips the
second key-1000 row.  The claim's "every row is fetched exactly once" is
false as stated. -/
theorem c5_counterexample :
    (⟨1000, "y"⟩ : AliasRow) ∈ c5Table ∧
    (⟨1000, "y"⟩ : AliasRow) ∉ (migrate c5Table).fetched := by
  constructor
  · decide
  · decide

/-- C2: for a performer row (distinct positive keys, one row per performer)
whose raw alias string splits into at least two pieces, after the whole
alias pass the performer's alias rows are exactly the trimmed pieces
deduplicated preserving first occurrence, and no normalized alias contains a
delimiter character. -/
theorem c2_alias_pass_normalizes : ∀ (t : List AliasRow) (r : AliasRow),
    (t.map (·.performer_id)).Nodup → (∀ x ∈ t, 0 < x.performer_id) →
    r ∈ t → 2 ≤ (splitAliases r.aliasText).length →
    (migrate t).table.filter (fun x => x.performer_id == r.performer_id) =
      (normalizedAliases r.aliasText).map (fun a => ⟨r.performer_id, a⟩) ∧
    ∀ a ∈ normalizedAliases r.aliasText, ∀ c ∈ a.toList, isDelim c = false := by
  intro t r hnd hpos hr h2
  have h0 : filterGT 0 t = t := filterGT_zero hpos
  obtain ⟨_, _, c3, _⟩ := aliasLoop_main (t.length + 1) 0 t (by rw [h0]; exact hnd)
    (fun _ => h0) (by rw [h0])
  rw [h0] at c3
  constructor
  · unfold migrate
    refine (c3 r hr).trans ?_
    unfold normalizedFor
    rw [if_neg (Nat.not_lt.mpr h2)]
  · exact fun a ha => normalizedAliases_no_delim _ a ha

/-- C2 witness: spec scenario 1 — the single performer's alias text
"Jane Doe, J. Doe / JD" is replaced by exactly the three normalized rows. -/
theorem c2_alias_pass_normalizes_witness :
    (migrate jane).table.filter (fun x => x.performer_id == 1) =
      (normalizedAliases "Jane Doe, J. Doe / JD").map (fun a => ⟨1, a⟩) :=
  (c2_alias_pass_normalizes jane ⟨1, "Jane Doe, J. Doe / JD"⟩ (by decide) (by decide)
    (by decide) (by decide)).1

end Stash42
